import Mathlib

/-!
# Verification of the basis-representation core of a functional-data-analysis toolkit

Shallow embedding, over exact rationals, of:
* `skfda/representation/basis/_basis.py` (`Basis`: evaluation, rescale, `_inner_matrix`,
  `_gram_matrix`, `default_basis_of_product` sizes),
* `skfda/representation/basis/_fdatabasis.py` (`FDataBasis`: constructor check, evaluation,
  `shift`, `times`, `inner_product`, `_inner_product_integrate`, `from_data`),
* `fda/registration.py` (`shift_registration`, `landmark_shift`, `_check_extrapolation`),
* `skfda/ml/regression/linear_model.py` (`LinearFunctionalRegression._argcheck` mutation
  behaviour).

Numeric conventions of the embedding: machine floats are modelled by `ℚ` (exact
arithmetic); `q / 0 = 0` is the Lean convention for rational division (the sources
would produce `inf`/`nan` there; no claim below depends on a division by zero).
`scipy.integrate.quad` is modelled by an abstract quadrature oracle
`quad : (ℚ → ℚ) → ℚ → ℚ → ℚ` (integrand, lower limit, upper limit), and the abstract
method `Basis.basis_of_product` by an oracle `bop : BasisM → BasisM → BasisM`,
since both are external to the dispatch logic under verification.
-/

/-! ## Generic list and matrix helpers (numpy primitives) -/

/-- `numpy.linspace a b n`: `n` evenly spaced points from `a` to `b` inclusive. -/
def linspace (a b : ℚ) (n : ℕ) : List ℚ :=
  if n ≤ 1 then [a]
  else (List.range n).map (fun (i : ℕ) => a + ((i : ℚ) * (b - a)) / ((n : ℚ) - 1))

/-- `numpy.trapz ys xs`: composite trapezoidal rule over sample points `xs`
with values `ys` (pairwise `(x₂ − x₁)·(y₁ + y₂)/2`). -/
def trapz (xs ys : List ℚ) : ℚ :=
  match xs, ys with
  | x1 :: x2 :: xs, y1 :: y2 :: ys =>
      (x2 - x1) * (y1 + y2) / 2 + trapz (x2 :: xs) (y2 :: ys)
  | _, _ => 0

/-- Binary minimum on `ℚ`, written out so that it reduces in the kernel
(equal to Mathlib's `min` by `qmin_eq_min`). -/
def qmin (a b : ℚ) : ℚ := if a ≤ b then a else b

/-- Binary maximum on `ℚ`, written out so that it reduces in the kernel
(equal to Mathlib's `max` by `qmax_eq_max`). -/
def qmax (a b : ℚ) : ℚ := if a ≤ b then b else a

/-- Absolute value on `ℚ`, written out so that it reduces in the kernel
(equal to Mathlib's `|·|` by `qabs_eq_abs`). -/
def qabs (q : ℚ) : ℚ := if q < 0 then -q else q

theorem qmin_eq_min (a b : ℚ) : qmin a b = min a b := (min_def a b).symm

theorem qmax_eq_max (a b : ℚ) : qmax a b = max a b := (max_def a b).symm

theorem qabs_eq_abs (q : ℚ) : qabs q = |q| := by
  rcases lt_or_le q 0 with h | h
  · simp [qabs, h, abs_of_neg h]
  · simp [qabs, not_lt.mpr h, abs_of_nonneg h]

/-- `numpy.min` on a nonempty vector (fold of `min` over the list). -/
def npMin (l : List ℚ) : ℚ := l.foldr qmin (l.headD 0)

/-- `numpy.max` on a nonempty vector (fold of `max` over the list). -/
def npMax (l : List ℚ) : ℚ := l.foldr qmax (l.headD 0)

theorem foldr_qmin_eq (d : ℚ) (l : List ℚ) : l.foldr qmin d = l.foldr min d := by
  induction l with
  | nil => rfl
  | cons x xs ih => simp only [List.foldr_cons, qmin_eq_min, ih]

theorem npMin_eq (l : List ℚ) : npMin l = l.foldr min (l.headD 0) :=
  foldr_qmin_eq _ _

theorem foldr_qmax_eq (d : ℚ) (l : List ℚ) : l.foldr qmax d = l.foldr max d := by
  induction l with
  | nil => rfl
  | cons x xs ih => simp only [List.foldr_cons, qmax_eq_max, ih]

theorem npMax_eq (l : List ℚ) : npMax l = l.foldr max (l.headD 0) :=
  foldr_qmax_eq _ _

/-- `numpy.abs(v).max()` on a vector. -/
def maxAbs (l : List ℚ) : ℚ := (l.map qabs).foldr qmax 0

/-- Dot product of two equal-length vectors. -/
def dotL (a b : List ℚ) : ℚ := (List.zipWith (fun p q => p * q) a b).sum

/-- Column `j` of a row-major list matrix. -/
def colL (m : List (List ℚ)) (j : ℕ) : List ℚ := m.map (fun r => r.getD j 0)

/-- Row-major matrix transpose (width taken from the first row, as a numpy
2-D array is rectangular). -/
def transposeL (m : List (List ℚ)) : List (List ℚ) :=
  (List.range (m.headD []).length).map (fun j => colL m j)

/-- Row-major matrix product (`numpy @`). -/
def matMulL (a b : List (List ℚ)) : List (List ℚ) :=
  a.map (fun r => (List.range (b.headD []).length).map (fun j => dotL r (colL b j)))

/-! ## Module-level constants

The module `skfda/_utils/constants.py` is not part of the provided sources; only its
uses (`constants.N_POINTS_COARSE_MESH`, `constants.N_POINTS_FINE_MESH`,
`constants.BASIS_MIN_FACTOR`) appear in `_fdatabasis.py`. -/

/-- Modelled from the spec: design note "Global defaults via module-level constants"
gives `N_POINTS_COARSE_MESH=201` for the missing `skfda/_utils/constants.py`. -/
def N_POINTS_COARSE_MESH : ℕ := 201

/-- Modelled from the spec: design note "Global defaults via module-level constants"
gives `N_POINTS_FINE_MESH=501` for the missing `skfda/_utils/constants.py`. -/
def N_POINTS_FINE_MESH : ℕ := 501

/-- Modelled from the spec: design note "Global defaults via module-level constants"
gives `BASIS_MIN_FACTOR=10` for the missing `skfda/_utils/constants.py` (consistent
with the `10·n_basis+1` mesh defaults stated for `shift` and registration). -/
def BASIS_MIN_FACTOR : ℕ := 10

/-! ## The `Basis` data model (`_basis.py`)

A basis family is represented by its evaluation rule given a domain: `fam dr k t`
is the value of the `k`-th basis function at `t` for the family instantiated on the
domain `dr`.  `famTag` models the Python `type(self)` used by structural equality
(`__eq__`: same class, same domain, same `n_basis`).  `rescale` keeps the family and
`n_basis` and replaces the domain (`type(self)(domain_range, self.n_basis)`). -/

structure BasisM where
  famTag : ℕ
  fam : ℚ × ℚ → ℕ → ℚ → ℚ
  a : ℚ
  b : ℚ
  n_basis : ℕ

/-- `Basis.domain_range` as the pair of endpoints. -/
def BasisM.domain_range (B : BasisM) : ℚ × ℚ := (B.a, B.b)

/-- `Basis.evaluate` of the `k`-th basis function at one point (derivative order 0).
The evaluation rule is total on `ℚ`, so evaluation outside the domain is the
family's own extrapolation. -/
def BasisM.eval (B : BasisM) (k : ℕ) (t : ℚ) : ℚ := B.fam (B.a, B.b) k t

/-- `Basis.rescale`: same family and `n_basis`, new domain range. -/
def BasisM.rescale (B : BasisM) (dr : ℚ × ℚ) : BasisM :=
  { B with a := dr.1, b := dr.2 }

/-- `Basis.__eq__`: same concrete family, same domain range, same `n_basis`. -/
def BasisM.beq (B C : BasisM) : Bool :=
  B.famTag = C.famTag && B.a = C.a && B.b = C.b && B.n_basis = C.n_basis

/-- The `Monomial` family: `φ_k(t) = t^k`, independent of the domain. -/
def monomialBasis (dr : ℚ × ℚ) (n : ℕ) : BasisM :=
  { famTag := 0, fam := fun _ k t => t ^ k, a := dr.1, b := dr.2, n_basis := n }

/-! ## The `FDataBasis` data model (`_fdatabasis.py`) -/

structure FDataBasis where
  basis : BasisM
  coefficients : List (List ℚ)

/-- `FDataBasis.n_samples`: number of coefficient rows. -/
def FDataBasis.n_samples (fd : FDataBasis) : ℕ := fd.coefficients.length

/-- `FDataBasis.n_basis`. -/
def FDataBasis.n_basis (fd : FDataBasis) : ℕ := fd.basis.n_basis

/-- `FDataBasis.domain_range` (delegates to the basis). -/
def FDataBasis.domain_range (fd : FDataBasis) : ℚ × ℚ := fd.basis.domain_range

/-- The spec invariant `coefficients.columns == basis.n_basis`. -/
def FDBInv (fd : FDataBasis) : Prop :=
  ∀ r ∈ fd.coefficients, r.length = fd.basis.n_basis

instance (fd : FDataBasis) : Decidable (FDBInv fd) := by
  unfold FDBInv; infer_instance

/-- The checked constructor `FDataBasis.__init__`: after `np.atleast_2d` the
coefficient matrix is a nonempty rectangular matrix; construction raises
`ValueError` unless its number of columns equals `basis.n_basis`. -/
def mkFDataBasis (basis : BasisM) (coefficients : List (List ℚ)) : Option FDataBasis :=
  if coefficients ≠ [] ∧ ∀ r ∈ coefficients, r.length = basis.n_basis then
    some ⟨basis, coefficients⟩
  else none

/-- Value of sample `i` at point `t`: `Σ_k c_{ik} φ_k(t)` (the `tensordot` of
`_evaluate` / the per-sample loop of `_evaluate_composed`, at one point). -/
def FDataBasis.evalSample (fd : FDataBasis) (i : ℕ) (t : ℚ) : ℚ :=
  (((fd.coefficients.getD i []).zipWith
      (fun c k => c * fd.basis.eval k t) (List.range fd.basis.n_basis))).sum

/-- `FDataBasis.evaluate` on a shared point list: row `i` holds the values of
sample `i` at every point. -/
def FDataBasis.evalMatrix (fd : FDataBasis) (pts : List ℚ) : List (List ℚ) :=
  (List.range fd.n_samples).map (fun i => pts.map (fun t => fd.evalSample i t))

/-- `self[i]`: the one-sample slice `self.copy(coefficients=coefficients[i:i+1])`. -/
def FDataBasis.row (fd : FDataBasis) (i : ℕ) : FDataBasis :=
  ⟨fd.basis, [fd.coefficients.getD i []]⟩

/-! ## Least-squares projection (`from_data`)

`FDataBasis.from_data` delegates to `skfda.preprocessing.smoothing.BasisSmoother`,
whose module is not part of the provided sources. -/

/-- Executable inverse of a square rational matrix, `det⁻¹ • adjugate`
(equal to Mathlib's noncomputable `A⁻¹` whenever the determinant is a unit). -/
def matInv {k : ℕ} (A : Matrix (Fin k) (Fin k) ℚ) : Matrix (Fin k) (Fin k) ℚ :=
  A.det⁻¹ • A.adjugate

/-- The design matrix `Φ[t, j] = φ_j(sample_points[t])`. -/
def phiMat (B : BasisM) (pts : List ℚ) : Matrix (Fin pts.length) (Fin B.n_basis) ℚ :=
  Matrix.of fun t j => B.eval j (pts.get t)

/-- Modelled from the spec: the missing `BasisSmoother` computes the ordinary
least-squares coefficients of one observation row by solving the normal equations
`(ΦᵀΦ)c = Φᵀy` (`cholesky` method, spec §4.2 `from_data`). -/
def lsqRow (B : BasisM) (pts : List ℚ) (y : List ℚ) : List ℚ :=
  List.ofFn (fun j =>
    ((matInv ((phiMat B pts).transpose * phiMat B pts) * (phiMat B pts).transpose).mulVec
      (fun t => y.getD t 0)) j)

/-- Modelled from the spec: `FDataBasis.from_data(data_matrix, sample_points, basis)`
(the `BasisSmoother` module is missing from the sources) projects every observation
row onto the basis by ordinary least squares and returns the resulting
`FDataBasis` (spec §4.2). -/
def from_data (data_matrix : List (List ℚ)) (sample_points : List ℚ)
    (basis : BasisM) : FDataBasis :=
  ⟨basis, data_matrix.map (fun y => lsqRow basis sample_points y)⟩

/-! ## `FDataBasis.times` (`_fdatabasis.py`, lines 582-632)

`basis_of_product` is an abstract method of `Basis`; it is passed as the oracle
`bop`.  The `int`/`list` operand branches multiply the coefficient rows directly
and are not needed by the claims below; the `FDataBasis` operand branch is
embedded in full. -/

/-- The grid size `max(BASIS_MIN_FACTOR * max(n_basis_self, n_basis_other) + 1,
N_POINTS_COARSE_MESH)` used by `times`. -/
def timesNeval (nb1 nb2 : ℕ) : ℕ :=
  max (BASIS_MIN_FACTOR * max nb1 nb2 + 1) N_POINTS_COARSE_MESH

/-- Broadcast rule of `times`: a single-sample operand is repeated to match the
other operand's sample count (`np.repeat(..., other.n_samples, axis=0)`). -/
def timesBroadcast (x : FDataBasis) (nOther : ℕ) : FDataBasis :=
  if x.n_samples = 1 ∧ nOther > 1 then
    ⟨x.basis, (List.range nOther).map (fun _ => x.coefficients.getD 0 [])⟩
  else x

/-- `FDataBasis.times(other)` for another `FDataBasis`: `None` models the
`ValueError` raised when the domain ranges differ; otherwise both operands are
discretized on the shared grid, multiplied pointwise, and re-projected via
`from_data` onto `basis_of_product`. -/
def FDataBasis.times (bop : BasisM → BasisM → BasisM)
    (x y : FDataBasis) : Option FDataBasis :=
  if x.domain_range ≠ y.domain_range then none
  else
    let basisobj := bop x.basis y.basis
    let neval := timesNeval x.n_basis y.n_basis
    let evalarg := linspace x.basis.a x.basis.b neval
    let first := timesBroadcast x y.n_samples
    let second := timesBroadcast y x.n_samples
    let fdarray := (List.range (max first.n_samples second.n_samples)).map
      (fun i => evalarg.map
        (fun t => first.evalSample i t * second.evalSample i t))
    some (from_data fdarray evalarg basisobj)

/-! ## `inner_product` (`_fdatabasis.py`, lines 634-706; `_basis.py`, lines 193-245) -/

/-- The single-pair integrand of `_inner_product_integrate`: `self[i].times(other[j])`
projected onto the product basis, then integrated by `scipy.integrate.quad` over the
domain.  The `times` domain check never fires here because both rows keep their
parents' (equal) domains; `0` is an unreachable placeholder for that case. -/
def pairIntegral (quad : (ℚ → ℚ) → ℚ → ℚ → ℚ) (bop : BasisM → BasisM → BasisM)
    (x y : FDataBasis) (i j : ℕ) : ℚ :=
  match FDataBasis.times bop (x.row i) (y.row j) with
  | some fd => quad (fun t => fd.evalSample 0 t) x.basis.a x.basis.b
  | none => 0

/-- `Basis._inner_matrix` entry: `first[i].inner_product(second[j], None, None)`
where `first`/`second` are the identity-coefficient `to_basis()` objects.  That
recursive `inner_product` call always dispatches to `_inner_product_integrate`
(its sample counts are `1·1`, never above `n_basis·n_basis` for the nonempty bases
the `Basis` constructor admits), so it equals the single-pair quadrature of the
two unit-coefficient functions. -/
def basisPairIntegral (quad : (ℚ → ℚ) → ℚ → ℚ → ℚ) (bop : BasisM → BasisM → BasisM)
    (B C : BasisM) (i j : ℕ) : ℚ :=
  pairIntegral quad bop
    ⟨B, [(List.range B.n_basis).map (fun k => if k = i then (1 : ℚ) else 0)]⟩
    ⟨C, [(List.range C.n_basis).map (fun k => if k = j then (1 : ℚ) else 0)]⟩ 0 0

/-- `Basis._gram_matrix`: upper triangle computed pairwise, lower triangle mirrored. -/
def gramMatrixM (quad : (ℚ → ℚ) → ℚ → ℚ → ℚ) (bop : BasisM → BasisM → BasisM)
    (B : BasisM) : List (List ℚ) :=
  (List.range B.n_basis).map (fun i => (List.range B.n_basis).map (fun j =>
    if i ≤ j then basisPairIntegral quad bop B B i j
    else basisPairIntegral quad bop B B j i))

/-- `Basis._inner_matrix(other)`: the cached Gram matrix when `self == other`
(structural equality), otherwise the full pairwise integral table. -/
def innerMatrixM (quad : (ℚ → ℚ) → ℚ → ℚ → ℚ) (bop : BasisM → BasisM → BasisM)
    (B C : BasisM) : List (List ℚ) :=
  if BasisM.beq B C then gramMatrixM quad bop B
  else (List.range B.n_basis).map (fun i => (List.range C.n_basis).map (fun j =>
    basisPairIntegral quad bop B C i j))

/-- `FDataBasis._inner_product_integrate`: one quadrature per sample pair. -/
def innerProductIntegrate (quad : (ℚ → ℚ) → ℚ → ℚ → ℚ)
    (bop : BasisM → BasisM → BasisM) (x y : FDataBasis) : List (List ℚ) :=
  (List.range x.n_samples).map (fun i => (List.range y.n_samples).map (fun j =>
    pairIntegral quad bop x y i j))

/-- `FDataBasis.inner_product(other, weights)`: `None` models the `ValueError`
raised when the domain ranges differ (and, when a weight function is supplied,
the error `times` would raise multiplying it in).  Above the cost crossover the
matrix path `C_self @ _inner_matrix @ C_otherᵀ` is used, otherwise the direct
pairwise quadrature.  The default linear differential operators (order 0) are
identities and are omitted. -/
def FDataBasis.inner_product (quad : (ℚ → ℚ) → ℚ → ℚ → ℚ)
    (bop : BasisM → BasisM → BasisM) (weights : Option FDataBasis)
    (x y : FDataBasis) : Option (List (List ℚ)) :=
  if x.domain_range ≠ y.domain_range then none
  else
    match (match weights with
           | none => some y
           | some w => FDataBasis.times bop y w) with
    | none => none
    | some y2 =>
      if x.n_samples * y2.n_samples > x.n_basis * y2.n_basis then
        some (matMulL (matMulL x.coefficients (innerMatrixM quad bop x.basis y2.basis))
          (transposeL y2.coefficients))
      else some (innerProductIntegrate quad bop x y2)

/-! ## `FDataBasis.shift` (`_fdatabasis.py`, lines 300-377) -/

/-- The restricted working interval of a shift vector over a domain range:
`(a - min(np.min(shifts), 0), b - max(np.max(shifts), 0))`. -/
def restrictInterval (dr : ℚ × ℚ) (shifts : List ℚ) : ℚ × ℚ :=
  (dr.1 - qmin (npMin shifts) 0, dr.2 - qmax (npMax shifts) 0)

/-- Evaluation points kept when the domain is restricted:
`eval_points[np.logical_and(eval_points >= a, eval_points <= b)]`. -/
def restrictPoints (dr : ℚ × ℚ) (shifts : List ℚ) (pts : List ℚ) : List ℚ :=
  pts.filter (fun t =>
    decide ((restrictInterval dr shifts).1 ≤ t) &&
    decide (t ≤ (restrictInterval dr shifts).2))

/-- Default shift discretization grid:
`np.linspace(*domain_range, max(n_basis * 10 + 1, N_POINTS_COARSE_MESH))`. -/
def shiftGrid (fd : FDataBasis) (eval_points : Option (List ℚ)) : List ℚ :=
  match eval_points with
  | none => linspace fd.basis.a fd.basis.b
      (max (fd.n_basis * 10 + 1) N_POINTS_COARSE_MESH)
  | some pts => pts

/-- The scalar branch of `FDataBasis.shift` (`np.isscalar(shifts)`): evaluate on the
unshifted grid, re-project those values at `eval_points + shifts` onto the basis
rescaled to `(a + shifts, b + shifts)`. -/
def FDataBasis.shiftScalar (fd : FDataBasis) (s : ℚ)
    (eval_points : Option (List ℚ)) : FDataBasis :=
  let pts := shiftGrid fd eval_points
  from_data (fd.evalMatrix pts) (pts.map (fun t => t + s))
    (fd.basis.rescale (fd.basis.a + s, fd.basis.b + s))

/-- The vector branch of `FDataBasis.shift`: `None` models the `ValueError` when
`len(shifts) != n_samples`; otherwise each sample is evaluated at its own shifted
grid and re-projected at the common `eval_points` onto the basis rescaled to the
(possibly restricted) domain. -/
def FDataBasis.shiftVector (fd : FDataBasis) (shifts : List ℚ)
    (restrict_domain : Bool) (eval_points : Option (List ℚ)) : Option FDataBasis :=
  let pts := shiftGrid fd eval_points
  if shifts.length ≠ fd.n_samples then none
  else
    let dom := if restrict_domain then restrictInterval fd.basis.domain_range shifts
               else fd.basis.domain_range
    let pts2 := if restrict_domain then restrictPoints fd.basis.domain_range shifts pts
                else pts
    let data_matrix := (List.range fd.n_samples).map (fun i =>
      pts2.map (fun t => fd.evalSample i (t + shifts.getD i 0)))
    some (from_data data_matrix pts2 (fd.basis.rescale dom))

/-! ## Shift registration (`fda/registration.py`)

The functional object `fd` of the old `fda` package enters only through
`fd.nsamples`, `fd.nbasis`, `fd.basis.domain_range`, `fd.default_extrapolation`,
`fd.evaluate(tfine, 1)` (first-derivative values) and
`fd.evaluate_shifted(tfine, delta, ext)` (sample `i` at `tfine + delta[i]`); it is
therefore modelled by its evaluation maps.  Both maps are total on `ℚ`, so each
extrapolation policy is baked into the map itself. -/

structure RegFD where
  nsamples : ℕ
  nbasis : ℕ
  a : ℚ
  b : ℚ
  eval : ℕ → ℚ → ℚ
  evalD : ℕ → ℚ → ℚ
  defaultExt : ℕ

/-- The `ext` argument of `shift_registration` (`"default" | "basis" | "periodic"
| "slice"`, or the numeric codes 0-3). -/
inductive ExtArg where
  | default
  | basisE
  | periodicE
  | sliceE
deriving DecidableEq

/-- `_check_extrapolation`: resolve `"default"` through `fd.default_extrapolation`
(modelled as a numeric code: 1 basis, 2 periodic, 3 slice, anything else invalid),
then map to `(periodic, periodic_ext)`; `None` models the `ValueError` for an
unrecognized value. -/
def checkExtrapolation (fd : RegFD) (ext : ExtArg) : Option (Bool × Bool) :=
  let e := if ext = ExtArg.default then
      (if fd.defaultExt = 1 then ExtArg.basisE
       else if fd.defaultExt = 2 then ExtArg.periodicE
       else if fd.defaultExt = 3 then ExtArg.sliceE
       else ExtArg.default)
    else ext
  match e with
  | ExtArg.basisE => some (true, false)
  | ExtArg.periodicE => some (true, true)
  | ExtArg.sliceE => some (false, false)
  | ExtArg.default => none

/-- Fixed data of one registration run (after argument resolution). -/
structure RegP where
  fd : RegFD
  tol : ℚ
  alpha : ℚ
  periodic : Bool
  tfine : List ℚ

/-- The working mesh of one iteration: the full mesh for periodic extension,
otherwise the points of the original mesh inside the interval still valid for
every curve under the current shift vector. -/
def regMesh (P : RegP) (delta : List ℚ) : List ℚ :=
  if P.periodic then P.tfine
  else restrictPoints (P.fd.a, P.fd.b) delta P.tfine

/-- One Newton-Raphson iteration of `shift_registration`, embedded from the
vectorized numpy body: returns the updated shift vector and the update vector
`alpha * d1_regsse / d2_regsse` whose maximal absolute value drives convergence.
The derivative rows `D1x[:, domain]` are the precomputed derivative values at the
kept mesh points, so they are recomputed here as `mesh.map (evalD i)`; in the
periodic case the mesh is the full `tfine` and `d2_regsse` coincides with the
value precomputed before the loop. -/
def regStep (P : RegP) (delta : List ℚ) : List ℚ × List ℚ :=
  let mesh := regMesh P delta
  let D1x := (List.range P.fd.nsamples).map (fun i => mesh.map (P.fd.evalD i))
  let d2 := D1x.map (fun row => trapz mesh (row.map (fun v => v * v)))
  let x := (List.range P.fd.nsamples).map (fun i =>
    mesh.map (fun t => P.fd.eval i (t + delta.getD i 0)))
  let n : ℚ := (P.fd.nsamples : ℚ)
  let mean := (x.foldr (List.zipWith (fun p q => p + q))
    (mesh.map (fun _ => (0 : ℚ)))).map (fun v => v / n)
  let xc := x.map (fun row => List.zipWith (fun p q => p - q) row mean)
  let d1 := List.zipWith (fun row drow => trapz mesh
    (List.zipWith (fun p q => p * q) row drow)) xc D1x
  let upd := List.zipWith (fun p q => P.alpha * (p / q)) d1 d2
  (List.zipWith (fun p q => p - q) delta upd, upd)

/-- The `while max_diff > tol and iter < maxiter` loop, with the remaining
iteration budget as fuel and the entering `max_diff` as state (initially
`tol + 1`). -/
def regLoop (P : RegP) (fuel : ℕ) (maxDiff : ℚ) (delta : List ℚ) : List ℚ :=
  match fuel with
  | 0 => delta
  | fuel + 1 =>
    if maxDiff > P.tol then
      let s := regStep P delta
      regLoop P fuel (maxAbs s.2) s.1
    else delta

/-- `shift_registration(fd, maxiter, tol, ext, alpha, initial, tfine,
shifts_array=True)`: the estimated shift vector, or `None` for the `ValueError`
on a wrong-length initial vector or an unrecognized `ext`. -/
def shift_registration (fd : RegFD) (maxiter : ℕ) (tol : ℚ) (ext : ExtArg)
    (alpha : ℚ) (initial : List ℚ) (tfine : List ℚ) : Option (List ℚ) :=
  let delta0 := if initial = [] then List.replicate fd.nsamples (0 : ℚ)
    else initial
  if initial ≠ [] ∧ initial.length ≠ fd.nsamples then none
  else
    let mesh := if tfine = [] then
        linspace fd.a fd.b (max (fd.nbasis * 10 + 1) 201)
      else tfine
    match checkExtrapolation fd ext with
    | none => none
    | some pe =>
      some (regLoop { fd := fd, tol := tol, alpha := alpha,
                      periodic := pe.1, tfine := mesh } maxiter (tol + 1) delta0)

/-! ### The claim-side renditions of the iteration

`specStep` restates one iteration pointwise, in the words of the spec: for each
sample `i`, `d1_i` is the trapezoidal integral over the current mesh of (curve `i`
at its shifted mesh minus the cross-sample mean) times the derivative values,
`d2_i` the integral of the squared derivative values, and the update is
`alpha * d1_i / d2_i`.  The two loop variants stop when the maximal absolute
update is `< tol` (`specLoopLt`, the claim as stated) or `≤ tol` (`specLoopLe`),
or when the iteration budget is exhausted. -/

def specMeanAt (P : RegP) (delta : List ℚ) (t : ℚ) : ℚ :=
  (((List.range P.fd.nsamples).map
    (fun i => P.fd.eval i (t + delta.getD i 0))).sum) / (P.fd.nsamples : ℚ)

def specD1 (P : RegP) (delta : List ℚ) (mesh : List ℚ) (i : ℕ) : ℚ :=
  trapz mesh (mesh.map (fun t =>
    (P.fd.eval i (t + delta.getD i 0) - specMeanAt P delta t) * P.fd.evalD i t))

def specD2 (P : RegP) (mesh : List ℚ) (i : ℕ) : ℚ :=
  trapz mesh (mesh.map (fun t => P.fd.evalD i t * P.fd.evalD i t))

def specStep (P : RegP) (delta : List ℚ) : List ℚ × List ℚ :=
  let mesh := regMesh P delta
  let upd := (List.range P.fd.nsamples).map
    (fun i => P.alpha * (specD1 P delta mesh i / specD2 P mesh i))
  ((List.range P.fd.nsamples).map (fun i => delta.getD i 0 - upd.getD i 0), upd)

def specLoopLt (P : RegP) (fuel : ℕ) (delta : List ℚ) : List ℚ :=
  match fuel with
  | 0 => delta
  | fuel + 1 =>
    let s := specStep P delta
    if maxAbs s.2 < P.tol then s.1 else specLoopLt P fuel s.1

def specLoopLe (P : RegP) (fuel : ℕ) (delta : List ℚ) : List ℚ :=
  match fuel with
  | 0 => delta
  | fuel + 1 =>
    let s := specStep P delta
    if maxAbs s.2 ≤ P.tol then s.1 else specLoopLe P fuel s.1

/-- `shift_registration` with the iteration replaced by the claim-side rendition
stopping strictly below the tolerance (the claim as stated). -/
def shiftRegistrationSpecLt (fd : RegFD) (maxiter : ℕ) (tol : ℚ) (ext : ExtArg)
    (alpha : ℚ) (initial : List ℚ) (tfine : List ℚ) : Option (List ℚ) :=
  let delta0 := if initial = [] then List.replicate fd.nsamples (0 : ℚ)
    else initial
  if initial ≠ [] ∧ initial.length ≠ fd.nsamples then none
  else
    let mesh := if tfine = [] then
        linspace fd.a fd.b (max (fd.nbasis * 10 + 1) 201)
      else tfine
    match checkExtrapolation fd ext with
    | none => none
    | some pe =>
      some (specLoopLt { fd := fd, tol := tol, alpha := alpha,
                         periodic := pe.1, tfine := mesh } maxiter delta0)

/-- `shift_registration` with the iteration replaced by the claim-side rendition
stopping at or below the tolerance (the amended stopping rule). -/
def shiftRegistrationSpecLe (fd : RegFD) (maxiter : ℕ) (tol : ℚ) (ext : ExtArg)
    (alpha : ℚ) (initial : List ℚ) (tfine : List ℚ) : Option (List ℚ) :=
  let delta0 := if initial = [] then List.replicate fd.nsamples (0 : ℚ)
    else initial
  if initial ≠ [] ∧ initial.length ≠ fd.nsamples then none
  else
    let mesh := if tfine = [] then
        linspace fd.a fd.b (max (fd.nbasis * 10 + 1) 201)
      else tfine
    match checkExtrapolation fd ext with
    | none => none
    | some pe =>
      some (specLoopLe { fd := fd, tol := tol, alpha := alpha,
                         periodic := pe.1, tfine := mesh } maxiter delta0)

/-! ## `landmark_shift` (`fda/registration.py`, lines 202-236) -/

/-- Insert into a sorted list (ascending). -/
def insertAsc (q : ℚ) : List ℚ → List ℚ
  | [] => [q]
  | x :: xs => if q ≤ x then q :: x :: xs else x :: insertAsc q xs

/-- Insertion sort, ascending. -/
def sortAsc (l : List ℚ) : List ℚ := l.foldr insertAsc []

/-- `numpy.median`: middle element of the sorted vector, or the mean of the two
middle elements for an even length. -/
def npMedian (l : List ℚ) : ℚ :=
  let s := sortAsc l
  if l.length % 2 = 1 then s.getD (l.length / 2) 0
  else (s.getD (l.length / 2 - 1) 0 + s.getD (l.length / 2) 0) / 2

/-- The `location` argument of `landmark_shift`. -/
inductive LocArg where
  | minimize
  | meanL
  | medianL
  | middle
  | explicit (p : ℚ)
  | invalid
deriving DecidableEq

/-- `landmark_shift(fd, landmarks, location, shifts_array=True)`: the shift vector
`landmarks - p`, or `None` for the `ValueError` on a landmark count different from
the sample count or an unparsable location. -/
def landmark_shift (nsamples : ℕ) (dr : ℚ × ℚ) (landmarks : List ℚ)
    (location : LocArg) : Option (List ℚ) :=
  if landmarks.length ≠ nsamples then none
  else
    match location with
    | LocArg.minimize => some (landmarks.map (fun l => l - (npMax landmarks + npMin landmarks) / 2))
    | LocArg.meanL => some (landmarks.map (fun l => l - landmarks.sum / (landmarks.length : ℚ)))
    | LocArg.medianL => some (landmarks.map (fun l => l - npMedian landmarks))
    | LocArg.middle => some (landmarks.map (fun l => l - (dr.2 + dr.1) / 2))
    | LocArg.explicit p => some (landmarks.map (fun l => l - p))
    | LocArg.invalid => none

/-! ## `LinearFunctionalRegression._argcheck` (`linear_model.py`, lines 66-102)

The validation routine mutates the caller's predictor list in place: list-valued
predictors are replaced by their `FDataBasis(Constant(...), ...)` conversions before
the later checks run.  The embedding therefore threads the predictor list through
and returns its final state together with the error, if any.  Predictors enter as
either raw Python lists of scalars or functional objects (only their sample count
matters to the checks); the outcome enters through `isinstance(y, FData)`, its
sample count and its domain range; `beta_basis` entries through
`isinstance(b, Basis)`. -/

inductive PredM where
  | rawList (l : List ℚ)
  | fdObj (fd : FDataBasis)

/-- Sample count of a predictor after (or without) conversion. -/
def PredM.nsamples : PredM → ℕ
  | PredM.rawList l => l.length
  | PredM.fdObj fd => fd.n_samples

structure Outcome where
  isFData : Bool
  nsamples : ℕ
  domain_range : ℚ × ℚ

inductive BetaEntry where
  | isBasis (B : BasisM)
  | notBasis

/-- `isinstance(b, Basis)` negated, as a boolean. -/
def BetaEntry.isNotBasis : BetaEntry → Bool
  | BetaEntry.isBasis _ => false
  | BetaEntry.notBasis => true

/-- The `Constant` basis family on a domain (one basis function, constantly 1). -/
def constantBasis (dr : ℚ × ℚ) : BasisM :=
  { famTag := 1, fam := fun _ _ _ => 1, a := dr.1, b := dr.2, n_basis := 1 }

/-- The in-place conversion `x[j] = FDataBasis(Constant(y.domain_range),
np.asarray(x[j]).reshape((-1, 1)))` applied to list-valued predictors. -/
def convertPred (dr : ℚ × ℚ) : PredM → PredM
  | PredM.rawList l => PredM.fdObj ⟨constantBasis dr, l.map (fun v => [v])⟩
  | p => p

inductive ArgErr where
  | notFData
  | betaCount
  | sampleCount
  | betaNotBasis
  | weightLen
  | weightNeg
deriving DecidableEq

/-- `_argcheck(y, x, weights)`: returns the final state of the caller's predictor
list together with the raised error (if any); on success the resolved weights are
returned as well.  The check order and the position of the in-place conversion
follow the source exactly. -/
def argcheck (beta_basis : List BetaEntry) (y : Outcome) (x : List PredM)
    (weights : Option (List ℚ)) : List PredM × Option ArgErr × List ℚ :=
  if ¬ y.isFData then (x, some ArgErr.notFData, [])
  else if beta_basis.length ≠ x.length then (x, some ArgErr.betaCount, [])
  else
    let x2 := x.map (convertPred y.domain_range)
    if x2.any (fun p => p.nsamples != y.nsamples) then (x2, some ArgErr.sampleCount, [])
    else if beta_basis.any (fun e => e.isNotBasis) then
      (x2, some ArgErr.betaNotBasis, [])
    else
      let w := match weights with
        | none => List.replicate y.nsamples (1 : ℚ)
        | some w => w
      if w.length ≠ y.nsamples then (x2, some ArgErr.weightLen, [])
      else if w.any (fun c => decide (c < 0)) then (x2, some ArgErr.weightNeg, [])
      else (x2, none, w)

/-- The `fit` surface relevant to error handling: `beta_basis` is reassigned only
after `_argcheck` returns without error, so on a validation error the estimator's
`beta_basis` is returned unchanged while the predictor list keeps whatever
`_argcheck` left in it.  The successful branch (the normal-equation solve) is
abstracted by the oracle `solve`. -/
def fitOnState (solve : List BetaEntry → Outcome → List PredM → List ℚ → List BetaEntry)
    (beta_basis : List BetaEntry) (y : Outcome) (x : List PredM)
    (weights : Option (List ℚ)) : List PredM × List BetaEntry × Option ArgErr :=
  match argcheck beta_basis y x weights with
  | (x2, some e, _) => (x2, beta_basis, some e)
  | (x2, none, w) => (x2, solve beta_basis y x2 w, none)

/-! ## Helper lemmas -/

theorem getD_range_map {α : Type} (f : ℕ → α) {n i : ℕ} (d : α) (h : i < n) :
    ((List.range n).map f).getD i d = f i := by
  rw [List.getD_eq_getElem ((List.range n).map f) d (by simpa using h)]
  simp [h]

theorem foldr_min_le (d : ℚ) (l : List ℚ) :
    (l.foldr min d ≤ d ∧ ∀ s ∈ l, l.foldr min d ≤ s) := by
  induction l with
  | nil => simp
  | cons x xs ih =>
    refine ⟨le_trans (min_le_right _ _) ih.1, ?_⟩
    intro s hs
    rcases List.mem_cons.mp hs with h | h
    · exact h ▸ min_le_left _ _
    · exact le_trans (min_le_right _ _) (ih.2 s h)

theorem foldr_min_mem (d : ℚ) (l : List ℚ) : l.foldr min d = d ∨ l.foldr min d ∈ l := by
  induction l with
  | nil => simp
  | cons x xs ih =>
    rcases le_total x (xs.foldr min d) with h | h
    · right; simp [min_eq_left h]
    · rcases ih with h2 | h2
      · left; rw [List.foldr_cons, min_eq_right h, h2]
      · right; simp only [List.foldr_cons, min_eq_right h]
        exact List.mem_cons_of_mem x h2

theorem npMin_spec (l : List ℚ) (h : l ≠ []) :
    npMin l ∈ l ∧ ∀ s ∈ l, npMin l ≤ s := by
  match l with
  | x :: xs =>
    rw [npMin_eq]
    constructor
    · rcases foldr_min_mem (List.headD (x :: xs) 0) (x :: xs) with h2 | h2
      · rw [h2]; simp
      · exact h2
    · exact (foldr_min_le _ _).2

theorem foldr_max_ge (d : ℚ) (l : List ℚ) :
    (d ≤ l.foldr max d ∧ ∀ s ∈ l, s ≤ l.foldr max d) := by
  induction l with
  | nil => simp
  | cons x xs ih =>
    refine ⟨le_trans ih.1 (le_max_right _ _), ?_⟩
    intro s hs
    rcases List.mem_cons.mp hs with h | h
    · exact h ▸ le_max_left _ _
    · exact le_trans (ih.2 s h) (le_max_right _ _)

theorem foldr_max_mem (d : ℚ) (l : List ℚ) : l.foldr max d = d ∨ l.foldr max d ∈ l := by
  induction l with
  | nil => simp
  | cons x xs ih =>
    rcases le_total (xs.foldr max d) x with h | h
    · right; simp [max_eq_left h]
    · rcases ih with h2 | h2
      · left; rw [List.foldr_cons, max_eq_right h, h2]
      · right; simp only [List.foldr_cons, max_eq_right h]
        exact List.mem_cons_of_mem x h2

theorem npMax_spec (l : List ℚ) (h : l ≠ []) :
    npMax l ∈ l ∧ ∀ s ∈ l, s ≤ npMax l := by
  match l with
  | x :: xs =>
    rw [npMax_eq]
    constructor
    · rcases foldr_max_mem (List.headD (x :: xs) 0) (x :: xs) with h2 | h2
      · rw [h2]; simp
      · exact h2
    · exact (foldr_max_ge _ _).2

/-! ## Claim C10 -/

/-- C10: `inner_product` raises (returns `none`) whenever the two operands have
different domain ranges — regardless of the weight argument — and, conversely,
a default (unweighted) call returns `none` exactly when the domain ranges differ:
it only ever returns a matrix when both operands share the same domain range. -/
theorem claim_C10 (quad : (ℚ → ℚ) → ℚ → ℚ → ℚ) (bop : BasisM → BasisM → BasisM)
    (w : Option FDataBasis) (x y : FDataBasis) :
    (x.domain_range ≠ y.domain_range →
      FDataBasis.inner_product quad bop w x y = none)
    ∧ (FDataBasis.inner_product quad bop none x y = none ↔
        x.domain_range ≠ y.domain_range) := by
  constructor
  · intro h
    simp [FDataBasis.inner_product, h]
  · by_cases h : x.domain_range = y.domain_range
    · simp only [FDataBasis.inner_product, h, ne_eq, not_true_eq_false, if_false,
        iff_false]
      split <;> simp
    · simp [FDataBasis.inner_product, h]

theorem claim_C10_witness :
    FDataBasis.inner_product (fun f a _ => f a) (fun B _ => B) none
      ⟨monomialBasis (0, 1) 1, [[1]]⟩ ⟨monomialBasis (0, 2) 1, [[1]]⟩ = none :=
  (claim_C10 (fun f a _ => f a) (fun B _ => B) none
      ⟨monomialBasis (0, 1) 1, [[1]]⟩ ⟨monomialBasis (0, 2) 1, [[1]]⟩).1 (by decide)

/-! ## Claim C7 -/

/-- C7: `landmark_shift` with `location='minimize'` raises (returns `none`) when
the landmark count differs from the sample count, and otherwise returns
`shift_i = landmark_i - (max(landmarks) + min(landmarks)) / 2` for every sample. -/
theorem claim_C7 (nsamples : ℕ) (dr : ℚ × ℚ) (landmarks : List ℚ) :
    (landmarks.length ≠ nsamples →
      landmark_shift nsamples dr landmarks LocArg.minimize = none)
    ∧ (landmarks.length = nsamples →
      landmark_shift nsamples dr landmarks LocArg.minimize =
        some (landmarks.map (fun l => l - (npMax landmarks + npMin landmarks) / 2))) := by
  constructor
  · intro h; simp [landmark_shift, h]
  · intro h; simp [landmark_shift, h]

/-- Witness for C7, the spec's own example: landmarks `[0.2, 0.8]` give the target
`0.5` and shifts `[-0.3, 0.3]`; a wrong landmark count fails. -/
theorem claim_C7_witness :
    (npMax [(1 : ℚ)/5, 4/5] + npMin [(1 : ℚ)/5, 4/5]) / 2 = 1/2
    ∧ landmark_shift 2 (0, 1) [(1 : ℚ)/5, 4/5] LocArg.minimize =
        some [-(3/10), 3/10]
    ∧ landmark_shift 2 (0, 1) [(1 : ℚ)/5] LocArg.minimize = none := by
  refine ⟨by with_unfolding_all decide, ?_, (claim_C7 2 (0, 1) [(1 : ℚ)/5]).1 (by decide)⟩
  rw [(claim_C7 2 (0, 1) [(1 : ℚ)/5, 4/5]).2 (by decide)]
  with_unfolding_all decide

/-! ## Claim C3 -/

/-- C3: under a per-sample shift vector, the restricted working interval — used by
`shift(restrict_domain=True)` and by the per-iteration mesh shrink of non-periodic
`shift_registration` — is exactly `[a - min(0, min(shifts)), b - max(0, max(shifts))]`,
where `npMin`/`npMax` really are the least and greatest shift, and exactly the
evaluation points inside that interval are kept. -/
theorem claim_C3 (dr : ℚ × ℚ) (shifts : List ℚ) (h : shifts ≠ [])
    (pts : List ℚ) (t : ℚ) (fd : RegFD) (tol alpha : ℚ) :
    restrictInterval dr shifts
      = (dr.1 - min 0 (npMin shifts), dr.2 - max 0 (npMax shifts))
    ∧ (npMin shifts ∈ shifts ∧ ∀ s ∈ shifts, npMin shifts ≤ s)
    ∧ (npMax shifts ∈ shifts ∧ ∀ s ∈ shifts, s ≤ npMax shifts)
    ∧ (t ∈ restrictPoints dr shifts pts ↔
        t ∈ pts ∧ dr.1 - min 0 (npMin shifts) ≤ t ∧ t ≤ dr.2 - max 0 (npMax shifts))
    ∧ regMesh { fd := fd, tol := tol, alpha := alpha, periodic := false,
                tfine := pts } shifts = restrictPoints (fd.a, fd.b) shifts pts := by
  refine ⟨?_, npMin_spec shifts h, npMax_spec shifts h, ?_, by simp [regMesh]⟩
  · simp [restrictInterval, qmin_eq_min, qmax_eq_max, min_comm, max_comm]
  · simp [restrictPoints, List.mem_filter, restrictInterval, qmin_eq_min,
      qmax_eq_max, min_comm (npMin shifts) 0, max_comm (npMax shifts) 0, and_assoc]

theorem claim_C3_witness :
    ((3 : ℚ)/5 ∈ restrictPoints (0, 1) [-(1/2), (1/4 : ℚ)] [0, 3/5] ↔
      (3 : ℚ)/5 ∈ [(0 : ℚ), 3/5]
        ∧ (0 : ℚ) - min 0 (npMin [-(1/2), (1/4 : ℚ)]) ≤ 3/5
        ∧ (3 : ℚ)/5 ≤ 1 - max 0 (npMax [-(1/2), (1/4 : ℚ)]))
    ∧ restrictInterval (0, 1) [-(1/2), (1/4 : ℚ)] = (1/2, 3/4) :=
  ⟨(claim_C3 (0, 1) [-(1/2), (1/4 : ℚ)] (by decide) [0, 3/5] (3/5)
      ⟨2, 2, 0, 1, fun _ _ => 0, fun _ _ => 0, 3⟩ 1 1).2.2.2.1,
   by with_unfolding_all decide⟩

/-! ## Claim C8 -/

theorem from_data_inv (dataM : List (List ℚ)) (pts : List ℚ) (B : BasisM) :
    FDBInv (from_data dataM pts B) := by
  intro r hr
  simp only [from_data, List.mem_map] at hr
  obtain ⟨y, _, rfl⟩ := hr
  simp [lsqRow, from_data]

/-- C8: every `FDataBasis` satisfies `coefficients.columns == basis.n_basis`: the
constructor fails when a coefficient row has a different length; a successfully
constructed object satisfies the invariant; the embedded operations that build a
new `FDataBasis` (`from_data`, both `shift` branches, `times`) preserve it; and
`shift` with a vector argument fails when `len(shifts) != n_samples`. -/
theorem claim_C8 (B : BasisM) (coefs : List (List ℚ)) (fd : FDataBasis)
    (shifts : List ℚ) (rflag : Bool) (optPts : Option (List ℚ)) (s : ℚ)
    (bop : BasisM → BasisM → BasisM) (x y : FDataBasis)
    (dataM : List (List ℚ)) (pts : List ℚ) :
    ((∃ r ∈ coefs, r.length ≠ B.n_basis) → mkFDataBasis B coefs = none)
    ∧ (∀ f, mkFDataBasis B coefs = some f → FDBInv f)
    ∧ FDBInv (from_data dataM pts B)
    ∧ FDBInv (fd.shiftScalar s optPts)
    ∧ (∀ f, fd.shiftVector shifts rflag optPts = some f → FDBInv f)
    ∧ (∀ f, FDataBasis.times bop x y = some f → FDBInv f)
    ∧ (shifts.length ≠ fd.n_samples → fd.shiftVector shifts rflag optPts = none) := by
  refine ⟨?_, ?_, from_data_inv dataM pts B, from_data_inv _ _ _, ?_, ?_, ?_⟩
  · rintro ⟨r, hr, hlen⟩
    rw [mkFDataBasis, if_neg]
    rintro ⟨-, hall⟩
    exact hlen (hall r hr)
  · intro f hf
    rw [mkFDataBasis] at hf
    split at hf
    · cases hf
      next hcond => exact hcond.2
    · cases hf
  · intro f hf
    by_cases hl : shifts.length ≠ fd.n_samples
    · simp [FDataBasis.shiftVector, hl] at hf
    · simp only [FDataBasis.shiftVector, hl, if_false, Option.some_inj] at hf
      exact hf ▸ from_data_inv _ _ _
  · intro f hf
    by_cases hd : x.domain_range ≠ y.domain_range
    · simp [FDataBasis.times, hd] at hf
    · simp only [FDataBasis.times, hd, if_false, Option.some_inj] at hf
      exact hf ▸ from_data_inv _ _ _
  · intro hl
    simp [FDataBasis.shiftVector, hl]

theorem claim_C8_witness :
    mkFDataBasis (monomialBasis (0, 1) 2) [[1]] = none
    ∧ (∀ f, mkFDataBasis (monomialBasis (0, 1) 2) [[1, 2]] = some f → FDBInv f)
    ∧ FDataBasis.shiftVector ⟨monomialBasis (0, 1) 2, [[1, 2]]⟩ [1, 1] false
        (some [0, 1]) = none :=
  ⟨(claim_C8 (monomialBasis (0, 1) 2) [[1]] ⟨monomialBasis (0, 1) 2, [[1, 2]]⟩
      [1, 1] false (some [0, 1]) 0 (fun B _ => B)
      ⟨monomialBasis (0, 1) 2, [[1, 2]]⟩ ⟨monomialBasis (0, 1) 2, [[1, 2]]⟩
      [] []).1 ⟨[1], by simp, by decide⟩,
   (claim_C8 (monomialBasis (0, 1) 2) [[1, 2]] ⟨monomialBasis (0, 1) 2, [[1, 2]]⟩
      [1, 1] false (some [0, 1]) 0 (fun B _ => B)
      ⟨monomialBasis (0, 1) 2, [[1, 2]]⟩ ⟨monomialBasis (0, 1) 2, [[1, 2]]⟩
      [] []).2.1,
   (claim_C8 (monomialBasis (0, 1) 2) [[1]] ⟨monomialBasis (0, 1) 2, [[1, 2]]⟩
      [1, 1] false (some [0, 1]) 0 (fun B _ => B)
      ⟨monomialBasis (0, 1) 2, [[1, 2]]⟩ ⟨monomialBasis (0, 1) 2, [[1, 2]]⟩
      [] []).2.2.2.2.2.2 (by decide)⟩

/-! ## Claim C5 -/

theorem linspace_length (a b : ℚ) {n : ℕ} (h : 1 < n) :
    (linspace a b n).length = n := by
  simp [linspace, Nat.not_le.mpr h]

theorem getD_map {α β : Type} (f : α → β) (l : List α) {i : ℕ}
    (h : i < l.length) (d : β) (d2 : α) : (l.map f).getD i d = f (l.getD i d2) := by
  rw [List.getD_eq_getElem (l.map f) d (by simpa using h),
      List.getD_eq_getElem l d2 h, List.getElem_map]

/-- C5 counterexample: with 21 basis functions on either side, `times` discretizes
on `max(10·21+1, 201) = 211` points, not on the claimed `max(8·21+1, 201) = 201`. -/
theorem counterexample_C5 :
    timesNeval 21 21 = 211
    ∧ max (8 * max 21 21 + 1) 201 = 201
    ∧ timesNeval 21 21 ≠ max (8 * max 21 21 + 1) 201 := by decide

/-- C5 (amended): `times` of two `FDataBasis` fails when the domain ranges differ,
and otherwise discretizes both operands (after single-sample broadcasting) on a
shared evenly spaced grid of exactly `max(10·max(n_basis_self, n_basis_other)+1,
201)` points over the domain, multiplies the evaluations pointwise, and re-projects
the result onto `basis_of_product` of the two bases. -/
theorem claim_C5 (bop : BasisM → BasisM → BasisM) (x y : FDataBasis) :
    (x.domain_range ≠ y.domain_range → FDataBasis.times bop x y = none)
    ∧ (x.domain_range = y.domain_range →
        ∃ grid dataM,
          FDataBasis.times bop x y = some (from_data dataM grid (bop x.basis y.basis))
          ∧ grid = linspace x.basis.a x.basis.b (timesNeval x.n_basis y.n_basis)
          ∧ grid.length
              = max (BASIS_MIN_FACTOR * max x.n_basis y.n_basis + 1) N_POINTS_COARSE_MESH
          ∧ (∀ i < timesNeval x.n_basis y.n_basis,
              grid.getD i 0 = x.basis.a +
                (i : ℚ) * (x.basis.b - x.basis.a) / ((timesNeval x.n_basis y.n_basis : ℚ) - 1))
          ∧ dataM.length = max (timesBroadcast x y.n_samples).n_samples
              (timesBroadcast y x.n_samples).n_samples
          ∧ ∀ i j, i < dataM.length → j < grid.length →
              (dataM.getD i []).getD j 0 =
                (timesBroadcast x y.n_samples).evalSample i (grid.getD j 0) *
                (timesBroadcast y x.n_samples).evalSample i (grid.getD j 0)) := by
  have hn : 1 < timesNeval x.n_basis y.n_basis :=
    lt_of_lt_of_le (by decide)
      (le_max_right (BASIS_MIN_FACTOR * max x.n_basis y.n_basis + 1) N_POINTS_COARSE_MESH)
  constructor
  · intro h; simp [FDataBasis.times, h]
  · intro h
    refine ⟨linspace x.basis.a x.basis.b (timesNeval x.n_basis y.n_basis),
      (List.range (max (timesBroadcast x y.n_samples).n_samples
          (timesBroadcast y x.n_samples).n_samples)).map
        (fun i => (linspace x.basis.a x.basis.b (timesNeval x.n_basis y.n_basis)).map
          (fun t => (timesBroadcast x y.n_samples).evalSample i t *
            (timesBroadcast y x.n_samples).evalSample i t)),
      ?_, rfl, linspace_length _ _ hn, ?_, by simp, ?_⟩
    · simp [FDataBasis.times, h]
    · intro i hi
      unfold linspace
      rw [if_neg (Nat.not_le.mpr hn)]
      exact getD_range_map _ 0 hi
    · intro i j hi hj
      rw [List.length_map, List.length_range] at hi
      rw [getD_range_map _ [] hi,
        getD_map _ _ (by exact hj) 0 0]

def c5x : FDataBasis := ⟨monomialBasis (0, 1) 1, [[2]]⟩

def c5y : FDataBasis := ⟨monomialBasis (0, 1) 1, [[3]]⟩

def c5bop : BasisM → BasisM → BasisM := fun B _ => B

theorem claim_C5_witness :
    ∃ grid dataM,
      FDataBasis.times c5bop c5x c5y = some (from_data dataM grid (c5bop c5x.basis c5y.basis))
      ∧ grid = linspace c5x.basis.a c5x.basis.b (timesNeval c5x.n_basis c5y.n_basis)
      ∧ grid.length
          = max (BASIS_MIN_FACTOR * max c5x.n_basis c5y.n_basis + 1) N_POINTS_COARSE_MESH
      ∧ (∀ i < timesNeval c5x.n_basis c5y.n_basis,
          grid.getD i 0 = c5x.basis.a +
            (i : ℚ) * (c5x.basis.b - c5x.basis.a) / ((timesNeval c5x.n_basis c5y.n_basis : ℚ) - 1))
      ∧ dataM.length = max (timesBroadcast c5x c5y.n_samples).n_samples
          (timesBroadcast c5y c5x.n_samples).n_samples
      ∧ ∀ i j, i < dataM.length → j < grid.length →
          (dataM.getD i []).getD j 0 =
            (timesBroadcast c5x c5y.n_samples).evalSample i (grid.getD j 0) *
            (timesBroadcast c5y c5x.n_samples).evalSample i (grid.getD j 0) :=
  (claim_C5 c5bop c5x c5y).2 (by decide)

/-! ## Claim C9 -/

/-- C9 counterexample: a list-valued predictor together with a sample-count
mismatch.  `_argcheck` first converts the caller's `x[0] = [1, 2]` in place into an
`FDataBasis` over the `Constant` basis, and only then raises the sample-count
error — so `fit` fails with a validation error yet the caller's predictor list has
been modified, against the claim that failing operations leave inputs unmodified. -/
theorem counterexample_C9 :
    (argcheck [BetaEntry.isBasis (monomialBasis (0, 1) 1)]
      ⟨true, 3, (0, 1)⟩ [PredM.rawList [1, 2]] none).2.1 = some ArgErr.sampleCount
    ∧ (argcheck [BetaEntry.isBasis (monomialBasis (0, 1) 1)]
        ⟨true, 3, (0, 1)⟩ [PredM.rawList [1, 2]] none).1 ≠ [PredM.rawList [1, 2]] := by
  constructor
  · rfl
  · intro h
    have h2 : (argcheck [BetaEntry.isBasis (monomialBasis (0, 1) 1)]
        ⟨true, 3, (0, 1)⟩ [PredM.rawList [1, 2]] none).1
        = [PredM.fdObj ⟨constantBasis (0, 1), [[1], [2]]⟩] := rfl
    rw [h2] at h
    simp at h

/-- Branch classification of `_argcheck`: the two checks raised before the
in-place list-predictor conversion return the untouched `x`; every later outcome
returns the converted list. -/
theorem argcheck_classify (bb : List BetaEntry) (y : Outcome) (x : List PredM)
    (w : Option (List ℚ)) :
    (¬ y.isFData = true → argcheck bb y x w = (x, some ArgErr.notFData, []))
    ∧ (y.isFData = true → bb.length ≠ x.length →
        argcheck bb y x w = (x, some ArgErr.betaCount, []))
    ∧ (y.isFData = true → bb.length = x.length →
        (argcheck bb y x w).1 = x.map (convertPred y.domain_range)
        ∧ ∀ e, (argcheck bb y x w).2.1 = some e →
            e ≠ ArgErr.notFData ∧ e ≠ ArgErr.betaCount) := by
  refine ⟨?_, ?_, ?_⟩
  · intro h1
    simp only [argcheck]
    rw [if_pos h1]
  · intro h1 h2
    simp only [argcheck]
    rw [if_neg (not_not_intro h1), if_pos h2]
  · intro h1 h2
    simp only [argcheck]
    rw [if_neg (not_not_intro h1), if_neg (not_not_intro h2)]
    constructor
    · split_ifs <;> rfl
    · intro e he
      split_ifs at he <;> simp only [Option.some_inj] at he <;> subst he <;>
        exact ⟨by simp, by simp⟩

/-- C9 (amended): a `fit` validation failure never modifies the estimator's
`beta_basis`, and it leaves the caller's predictor list `X` unmodified exactly in
the failure cases raised before the in-place list-predictor conversion (non-`FData`
outcome, predictor/beta count mismatch); the later failures (sample-count mismatch,
non-`Basis` beta entries, bad weights) leave `X` with its raw-list entries replaced
by their `FDataBasis` conversions.  In particular, when `X` contains no raw-list
predictor, every validation error leaves `X` unchanged. -/
theorem claim_C9 (solve : List BetaEntry → Outcome → List PredM → List ℚ → List BetaEntry)
    (bb : List BetaEntry) (y : Outcome) (x : List PredM) (w : Option (List ℚ)) :
    (∀ e, (argcheck bb y x w).2.1 = some e →
      ((e = ArgErr.notFData ∨ e = ArgErr.betaCount) → (argcheck bb y x w).1 = x)
      ∧ ((e ≠ ArgErr.notFData ∧ e ≠ ArgErr.betaCount) →
          (argcheck bb y x w).1 = x.map (convertPred y.domain_range)))
    ∧ (∀ e, (fitOnState solve bb y x w).2.2 = some e →
        (fitOnState solve bb y x w).2.1 = bb)
    ∧ ((∀ p ∈ x, convertPred y.domain_range p = p) →
        (argcheck bb y x w).2.1 ≠ none → (argcheck bb y x w).1 = x) := by
  have hchar := argcheck_classify bb y x w
  have hmain : ∀ e, (argcheck bb y x w).2.1 = some e →
      ((e = ArgErr.notFData ∨ e = ArgErr.betaCount) → (argcheck bb y x w).1 = x)
      ∧ ((e ≠ ArgErr.notFData ∧ e ≠ ArgErr.betaCount) →
          (argcheck bb y x w).1 = x.map (convertPred y.domain_range)) := by
    intro e he
    by_cases h1 : y.isFData = true
    · by_cases h2 : bb.length = x.length
      · rcases hchar.2.2 h1 h2 with ⟨hx, hcl⟩
        exact ⟨fun hor => absurd hor (by
          rcases hcl e he with ⟨hn1, hn2⟩
          rintro (h | h) <;> [exact hn1 h; exact hn2 h]),
          fun _ => hx⟩
      · rw [hchar.2.1 h1 h2] at he ⊢
        simp only [Option.some_inj] at he
        subst he
        exact ⟨fun _ => rfl, fun hne => absurd rfl hne.2⟩
    · rw [hchar.1 h1] at he ⊢
      simp only [Option.some_inj] at he
      subst he
      exact ⟨fun _ => rfl, fun hne => absurd rfl hne.1⟩
  refine ⟨hmain, ?_, ?_⟩
  · intro e he
    unfold fitOnState at he ⊢
    rcases hm : argcheck bb y x w with ⟨x2, oe, w2⟩
    cases oe with
    | some e2 => rfl
    | none =>
      rw [hm] at he
      exact Option.noConfusion he
  · intro hconv hne
    have hmapid : x.map (convertPred y.domain_range) = x := by
      calc x.map (convertPred y.domain_range) = x.map id := List.map_congr_left hconv
      _ = x := List.map_id x
    rcases hm : (argcheck bb y x w).2.1 with _ | e
    · exact absurd hm hne
    · rcases hmain e hm with ⟨ha, hb⟩
      by_cases hc : e = ArgErr.notFData ∨ e = ArgErr.betaCount
      · exact ha hc
      · push_neg at hc
        rw [hb hc, hmapid]

theorem claim_C9_witness :
    (argcheck [] ⟨false, 1, (0, 1)⟩ [] none).1 = []
    ∧ (fitOnState (fun bb _ _ _ => bb) [] ⟨false, 1, (0, 1)⟩ [] none).2.1 = [] :=
  ⟨((claim_C9 (fun bb _ _ _ => bb) [] ⟨false, 1, (0, 1)⟩ [] none).1
      ArgErr.notFData rfl).1 (Or.inl rfl),
   (claim_C9 (fun bb _ _ _ => bb) [] ⟨false, 1, (0, 1)⟩ [] none).2.1
      ArgErr.notFData rfl⟩

/-! ## Claim C4 -/

/-- C4: evaluation of both `shift` branches at the failing input
`fd = FDataBasis(Monomial(domain=(0,1), n_basis=2), [[0, 1]])` (the curve
`x(t) = t`), shift `1`, explicit `eval_points [0, 1]`.  The scalar branch
`fd.shift(1)` returns coefficients `[-1, 1]` on the translated domain `(1, 2)` —
the curve `t ↦ x(t - 1) = t - 1`, translated rightwards — while the constant-vector
branch `fd.shift([1])` returns coefficients `[1, 1]` on the unchanged domain
`(0, 1)` — the curve `t ↦ x(t + 1) = t + 1`, translated leftwards.  The two
branches therefore translate in opposite directions, contradicting the claim
(and the docstring, under which a scalar is simply "the shift to apply to all
samples"). -/
theorem claim_C4 :
    (FDataBasis.shiftScalar ⟨monomialBasis (0, 1) 2, [[0, 1]]⟩ 1
        (some [0, 1])).coefficients = [[-1, 1]]
    ∧ (FDataBasis.shiftScalar ⟨monomialBasis (0, 1) 2, [[0, 1]]⟩ 1
        (some [0, 1])).basis.domain_range = (1, 2)
    ∧ (FDataBasis.shiftVector ⟨monomialBasis (0, 1) 2, [[0, 1]]⟩ [1] false
        (some [0, 1])).map FDataBasis.coefficients = some [[1, 1]]
    ∧ (FDataBasis.shiftVector ⟨monomialBasis (0, 1) 2, [[0, 1]]⟩ [1] false
        (some [0, 1])).map (fun f => f.basis.domain_range) = some (0, 1) := by
  refine ⟨?_, by with_unfolding_all decide, ?_, ?_⟩ <;> with_unfolding_all decide

/-! ## Claim C6 -/

theorem matInv_mul {k : ℕ} (A : Matrix (Fin k) (Fin k) ℚ) (h : A.det ≠ 0) :
    matInv A * A = 1 := by
  have hu : IsUnit A.det := isUnit_iff_ne_zero.mpr h
  have hm : matInv A = A⁻¹ := by
    rw [Matrix.inv_def, Ring.inverse_eq_inv]
    rfl
  rw [hm]
  exact Matrix.nonsing_inv_mul A hu

theorem zipWith_range_sum (l : List ℚ) : ∀ f : ℚ → ℕ → ℚ,
    (List.zipWith f l (List.range l.length)).sum
      = ∑ k : Fin l.length, f (l.getD k 0) k := by
  induction l with
  | nil => intro f; simp
  | cons x xs ih =>
    intro f
    rw [List.length_cons, List.range_succ_eq_map, List.zipWith_cons_cons,
      List.zipWith_map_right, List.sum_cons, ih (fun a b => f a (b + 1)),
      Fin.sum_univ_succ]
    simp [Nat.succ_eq_add_one]

theorem zipWith_range_sum' (f : ℚ → ℕ → ℚ) (l : List ℚ) (K : ℕ) (h : l.length = K) :
    (List.zipWith f l (List.range K)).sum = ∑ k : Fin K, f (l.getD k 0) k := by
  subst h
  exact zipWith_range_sum l f

theorem ofFn_getD (l : List ℚ) :
    List.ofFn (fun j : Fin l.length => l.getD j 0) = l := by
  have h : (fun j : Fin l.length => l.getD j 0) = l.get := by
    funext j
    exact List.getD_eq_get l 0 j.isLt
  rw [h]
  exact List.ofFn_get l

theorem ofFn_getD' (l : List ℚ) (K : ℕ) (h : l.length = K) :
    List.ofFn (fun j : Fin K => l.getD j 0) = l := by
  subst h
  exact ofFn_getD l

theorem range_map_getD {α : Type} (l : List α) (d : α) :
    (List.range l.length).map (fun i => l.getD i d) = l := by
  induction l with
  | nil => rfl
  | cons x xs ih =>
    rw [List.length_cons, List.range_succ_eq_map, List.map_cons, List.map_map]
    have hcomp : ((fun i => (x :: xs).getD i d) ∘ Nat.succ) = fun i => xs.getD i d := by
      funext i
      simp [List.getD_cons_succ]
    rw [List.getD_cons_zero, hcomp, ih]

theorem lsq_recover (B : BasisM) (pts : List ℚ) (row : List ℚ)
    (hrow : row.length = B.n_basis)
    (hdet : ((phiMat B pts).transpose * phiMat B pts).det ≠ 0) :
    lsqRow B pts (pts.map (fun t =>
      ((row.zipWith (fun c k => c * B.eval k t) (List.range B.n_basis))).sum)) = row := by
  have hc : ∀ t : Fin pts.length,
      ((pts.map (fun t => ((row.zipWith (fun c k => c * B.eval k t)
          (List.range B.n_basis))).sum)).getD t 0)
        = (phiMat B pts).mulVec (fun k : Fin B.n_basis => row.getD k 0) t := by
    intro t
    rw [getD_map _ _ t.isLt 0 0]
    rw [zipWith_range_sum' (fun c k => c * B.eval k (pts.getD t 0)) row B.n_basis hrow]
    simp only [Matrix.mulVec, Matrix.dotProduct]
    refine Finset.sum_congr rfl (fun k _ => ?_)
    have hPtk : phiMat B pts t k = B.eval k (pts.getD t 0) := by
      simp [phiMat, List.getD_eq_get pts 0 t.isLt]
    rw [hPtk, mul_comm]
  have hyv : (fun t : Fin pts.length => ((pts.map (fun t =>
      ((row.zipWith (fun c k => c * B.eval k t) (List.range B.n_basis))).sum)).getD t 0))
      = (phiMat B pts).mulVec (fun k : Fin B.n_basis => row.getD k 0) := funext hc
  have hcomp : (matInv ((phiMat B pts).transpose * phiMat B pts) *
      (phiMat B pts).transpose).mulVec
        ((phiMat B pts).mulVec (fun k : Fin B.n_basis => row.getD k 0))
      = (fun k : Fin B.n_basis => row.getD k 0) := by
    rw [Matrix.mulVec_mulVec, Matrix.mul_assoc, matInv_mul _ hdet, Matrix.one_mulVec]
  unfold lsqRow
  simp only [hyv, hcomp]
  exact ofFn_getD' row B.n_basis hrow

/-- C6: for every basis and coefficient matrix, evaluating at points on which the
basis is non-degenerate (the normal-equation matrix `ΦᵀΦ` has nonzero determinant)
and projecting back with `from_data` at the same points recovers the original
coefficient matrix exactly (the exact-arithmetic counterpart of recovery to
floating-point tolerance); non-degeneracy already forces the point count to be at
least `n_basis`. -/
theorem claim_C6 (B : BasisM) (pts : List ℚ) (coefs : List (List ℚ))
    (hdet : ((phiMat B pts).transpose * phiMat B pts).det ≠ 0)
    (hlen : ∀ r ∈ coefs, r.length = B.n_basis) :
    from_data (FDataBasis.evalMatrix ⟨B, coefs⟩ pts) pts B = (⟨B, coefs⟩ : FDataBasis)
    ∧ B.n_basis ≤ pts.length := by
  constructor
  · have hrows : ∀ i, i < coefs.length →
        lsqRow B pts (pts.map (fun t => FDataBasis.evalSample ⟨B, coefs⟩ i t))
          = coefs.getD i [] := by
      intro i hi
      have hmem : coefs.getD i [] ∈ coefs :=
        (List.getD_eq_get coefs [] hi) ▸ List.get_mem coefs i hi
      exact lsq_recover B pts (coefs.getD i []) (hlen _ hmem) hdet
    show FDataBasis.mk B ((FDataBasis.evalMatrix ⟨B, coefs⟩ pts).map (lsqRow B pts))
        = FDataBasis.mk B coefs
    congr 1
    unfold FDataBasis.evalMatrix
    rw [List.map_map]
    have hcong : ∀ i ∈ List.range coefs.length,
        (lsqRow B pts ∘ fun i => pts.map (fun t => FDataBasis.evalSample ⟨B, coefs⟩ i t)) i
          = coefs.getD i [] := by
      intro i hi
      exact hrows i (List.mem_range.mp hi)
    calc ((List.range (FDataBasis.n_samples ⟨B, coefs⟩)).map
            (lsqRow B pts ∘ fun i => pts.map (fun t => FDataBasis.evalSample ⟨B, coefs⟩ i t)))
        = (List.range coefs.length).map (fun i => coefs.getD i []) :=
          List.map_congr_left hcong
      _ = coefs := range_map_getD coefs []
  · have hu : IsUnit ((phiMat B pts).transpose * phiMat B pts) :=
      (Matrix.isUnit_iff_isUnit_det _).mpr (isUnit_iff_ne_zero.mpr hdet)
    have h1 : ((phiMat B pts).transpose * phiMat B pts).rank = B.n_basis := by
      rw [Matrix.rank_of_isUnit _ hu, Fintype.card_fin]
    have h2 : ((phiMat B pts).transpose * phiMat B pts).rank ≤ (phiMat B pts).rank :=
      Matrix.rank_mul_le_right _ _
    have h3 : (phiMat B pts).rank ≤ pts.length := by
      have := Matrix.rank_le_card_height (phiMat B pts)
      simpa using this
    omega

theorem claim_C6_witness :
    from_data (FDataBasis.evalMatrix ⟨monomialBasis (0, 1) 2, [[3, 5]]⟩ [0, 1]) [0, 1]
        (monomialBasis (0, 1) 2) = (⟨monomialBasis (0, 1) 2, [[3, 5]]⟩ : FDataBasis)
    ∧ (monomialBasis (0, 1) 2).n_basis ≤ ([0, 1] : List ℚ).length :=
  claim_C6 (monomialBasis (0, 1) 2) [0, 1] [[3, 5]]
    (by with_unfolding_all decide) (by decide)

/-! ## Claim C1 -/

theorem dotL_sum (r : List ℚ) : ∀ s : List ℚ, r.length = s.length →
    dotL r s = ∑ k : Fin r.length, r.getD k 0 * s.getD k 0 := by
  induction r with
  | nil => intro s _; simp [dotL]
  | cons a rs ih =>
    intro s hs
    match s, hs with
    | b :: ss, hs =>
      have hlen : rs.length = ss.length := by simpa using hs
      simp only [dotL, List.zipWith_cons_cons, List.sum_cons] at *
      rw [ih ss hlen]
      simp only [List.length_cons]
      rw [Fin.sum_univ_succ]
      simp

theorem matMulL_entry (A B : List (List ℚ)) (i j : ℕ) (hi : i < A.length)
    (hj : j < (B.headD []).length) :
    ((matMulL A B).getD i []).getD j 0 = dotL (A.getD i []) (colL B j) := by
  unfold matMulL
  rw [getD_map _ _ hi [] []]
  exact getD_range_map _ 0 hj

theorem colL_getD (B : List (List ℚ)) (j k : ℕ) (hk : k < B.length) :
    (colL B j).getD k 0 = (B.getD k []).getD j 0 := by
  unfold colL
  rw [getD_map _ _ hk 0 []]

theorem colL_length (B : List (List ℚ)) (j : ℕ) : (colL B j).length = B.length := by
  simp [colL]

theorem transposeL_length (B : List (List ℚ)) :
    (transposeL B).length = (B.headD []).length := by
  simp [transposeL]

theorem transposeL_getD (B : List (List ℚ)) (l : ℕ) (hl : l < (B.headD []).length) :
    (transposeL B).getD l [] = colL B l := by
  unfold transposeL
  exact getD_range_map _ [] hl

theorem matMulL_length (A B : List (List ℚ)) : (matMulL A B).length = A.length := by
  simp [matMulL]

theorem matMulL_row_length (A B : List (List ℚ)) (i : ℕ) (hi : i < A.length) :
    ((matMulL A B).getD i []).length = (B.headD []).length := by
  unfold matMulL
  rw [getD_map _ _ hi [] []]
  simp

/-- Nested extensionality for row-major list matrices. -/
theorem list_matrix_ext (P Q : List (List ℚ)) (hlen : P.length = Q.length)
    (hrow : ∀ i, i < P.length → (P.getD i []).length = (Q.getD i []).length)
    (hentry : ∀ i j, i < P.length → j < (P.getD i []).length →
      (P.getD i []).getD j 0 = (Q.getD i []).getD j 0) : P = Q := by
  apply List.ext_get hlen
  intro i h1 h2
  rw [← List.getD_eq_get P [] h1, ← List.getD_eq_get Q [] h2]
  apply List.ext_get (hrow i h1)
  intro j hj1 hj2
  rw [← List.getD_eq_get _ 0 hj1, ← List.getD_eq_get _ 0 hj2]
  exact hentry i j h1 hj1

theorem getD_mem_of_lt {α : Type} (l : List α) (i : ℕ) (d : α) (h : i < l.length) :
    l.getD i d ∈ l := by
  rw [List.getD_eq_get l d h]
  exact List.get_mem l i h

theorem sum_fin_congr (f : ℕ → ℚ) {K1 K2 : ℕ} (h : K1 = K2) :
    (∑ k : Fin K1, f k) = ∑ k : Fin K2, f k := by
  subst h
  rfl

theorem innerMatrixM_shape (quad : (ℚ → ℚ) → ℚ → ℚ → ℚ)
    (bop : BasisM → BasisM → BasisM) (B C : BasisM) :
    (innerMatrixM quad bop B C).length = B.n_basis
    ∧ ∀ r ∈ innerMatrixM quad bop B C, r.length = C.n_basis := by
  unfold innerMatrixM
  split_ifs with h
  · have hn : B.n_basis = C.n_basis := by
      simp only [BasisM.beq, Bool.and_eq_true, decide_eq_true_eq] at h
      exact h.2
    unfold gramMatrixM
    refine ⟨by simp, ?_⟩
    intro r hr
    rw [List.mem_map] at hr
    obtain ⟨i, _, rfl⟩ := hr
    simp [hn]
  · refine ⟨by simp, ?_⟩
    intro r hr
    rw [List.mem_map] at hr
    obtain ⟨i, _, rfl⟩ := hr
    simp

theorem times_of_same_domain (bop : BasisM → BasisM → BasisM) (x y : FDataBasis)
    (h : x.domain_range = y.domain_range) :
    FDataBasis.times bop x y = some (from_data
      ((List.range (max (timesBroadcast x y.n_samples).n_samples
          (timesBroadcast y x.n_samples).n_samples)).map
        (fun i => (linspace x.basis.a x.basis.b (timesNeval x.n_basis y.n_basis)).map
          (fun t => (timesBroadcast x y.n_samples).evalSample i t *
            (timesBroadcast y x.n_samples).evalSample i t)))
      (linspace x.basis.a x.basis.b (timesNeval x.n_basis y.n_basis))
      (bop x.basis y.basis)) := by
  simp [FDataBasis.times, h]

theorem headD_eq_getD {α : Type} (l : List α) (d : α) : l.headD d = l.getD 0 d := by
  cases l <;> rfl

theorem dotL_sum' (r s : List ℚ) (K : ℕ) (hr : r.length = K) (hs : s.length = K) :
    dotL r s = ∑ k : Fin K, r.getD k 0 * s.getD k 0 := by
  subst hr
  exact dotL_sum r s hs.symm

/-- C1: on a shared domain, `inner_product` dispatches on the strict inequality
`n_samples_self * n_samples_other > n_basis_self * n_basis_other`: above the
crossover it returns exactly the coefficient-matrix product
`C_self @ InnerMatrix(basis_self, basis_other) @ C_otherᵀ` (stated entrywise as the
double sum), and otherwise it integrates each sample pair directly by numerical
quadrature of the projected pointwise product `self[i].times(other[j])`. -/
theorem claim_C1 (quad : (ℚ → ℚ) → ℚ → ℚ → ℚ) (bop : BasisM → BasisM → BasisM)
    (x y : FDataBasis) (hdom : x.domain_range = y.domain_range)
    (hx : FDBInv x) (hy : FDBInv y)
    (hbx : 1 ≤ x.n_basis) (hby : 1 ≤ y.n_basis) :
    (x.n_samples * y.n_samples > x.n_basis * y.n_basis →
      FDataBasis.inner_product quad bop none x y
        = some ((List.range x.n_samples).map (fun i =>
            (List.range y.n_samples).map (fun j =>
              ∑ k : Fin x.n_basis, ∑ l : Fin y.n_basis,
                (x.coefficients.getD i []).getD k 0 *
                ((innerMatrixM quad bop x.basis y.basis).getD k []).getD l 0 *
                (y.coefficients.getD j []).getD l 0))))
    ∧ (¬ x.n_samples * y.n_samples > x.n_basis * y.n_basis →
      FDataBasis.inner_product quad bop none x y
        = some (innerProductIntegrate quad bop x y)
      ∧ ∀ i j, i < x.n_samples → j < y.n_samples →
        ∃ fd, FDataBasis.times bop (x.row i) (y.row j) = some fd
          ∧ ((innerProductIntegrate quad bop x y).getD i []).getD j 0
            = quad (fun t => fd.evalSample 0 t) x.basis.a x.basis.b) := by
  have hred : FDataBasis.inner_product quad bop none x y
      = if x.n_samples * y.n_samples > x.n_basis * y.n_basis
        then some (matMulL (matMulL x.coefficients
            (innerMatrixM quad bop x.basis y.basis)) (transposeL y.coefficients))
        else some (innerProductIntegrate quad bop x y) := by
    simp only [FDataBasis.inner_product]
    rw [if_neg (not_not_intro hdom)]
  constructor
  · intro hgt
    rw [hred, if_pos hgt]
    refine congrArg some ?_
    have hn0 : 0 < x.n_samples := by
      rcases Nat.eq_zero_or_pos x.n_samples with h0 | h0
      · rw [h0, Nat.zero_mul] at hgt; omega
      · exact h0
    have hm0 : 0 < y.n_samples := by
      rcases Nat.eq_zero_or_pos y.n_samples with h0 | h0
      · rw [h0, Nat.mul_zero] at hgt; omega
      · exact h0
    obtain ⟨hM1, hM2⟩ := innerMatrixM_shape quad bop x.basis y.basis
    have hArow : ∀ i, i < x.coefficients.length →
        (x.coefficients.getD i []).length = x.n_basis :=
      fun i hi => hx _ (getD_mem_of_lt _ i [] hi)
    have hC2row : ∀ j, j < y.coefficients.length →
        (y.coefficients.getD j []).length = y.n_basis :=
      fun j hj => hy _ (getD_mem_of_lt _ j [] hj)
    have hMrow : ∀ k, k < (innerMatrixM quad bop x.basis y.basis).length →
        ((innerMatrixM quad bop x.basis y.basis).getD k []).length = y.n_basis :=
      fun k hk => hM2 _ (getD_mem_of_lt _ k [] hk)
    have hMhead : ((innerMatrixM quad bop x.basis y.basis).headD []).length = y.n_basis := by
      rw [headD_eq_getD]
      exact hMrow 0 (by rw [hM1]; exact hbx)
    have hC2head : (y.coefficients.headD []).length = y.n_basis := by
      rw [headD_eq_getD]
      exact hC2row 0 hm0
    have hTlen : (transposeL y.coefficients).length = y.n_basis := by
      rw [transposeL_length, hC2head]
    have hThead : ((transposeL y.coefficients).headD []).length = y.n_samples := by
      rw [headD_eq_getD, transposeL_getD y.coefficients 0 (by rw [hC2head]; exact hby),
        colL_length]
      rfl
    have hAMlen : (matMulL x.coefficients (innerMatrixM quad bop x.basis y.basis)).length
        = x.n_samples := matMulL_length _ _
    have hAMrow : ∀ i, i < x.n_samples →
        ((matMulL x.coefficients (innerMatrixM quad bop x.basis y.basis)).getD i []).length
          = y.n_basis := by
      intro i hi
      rw [matMulL_row_length _ _ i hi, hMhead]
    apply list_matrix_ext
    · rw [matMulL_length, hAMlen]
      simp
    · intro i hi
      rw [matMulL_length, hAMlen] at hi
      rw [matMulL_row_length _ _ i (by rw [hAMlen]; exact hi), hThead,
        getD_range_map _ [] hi]
      simp
    · intro i j hi hj
      rw [matMulL_length, hAMlen] at hi
      rw [matMulL_row_length _ _ i (by rw [hAMlen]; exact hi), hThead] at hj
      rw [getD_range_map _ [] hi, getD_range_map _ 0 hj]
      rw [matMulL_entry _ _ i j (by rw [hAMlen]; exact hi) (by rw [hThead]; exact hj)]
      rw [dotL_sum' _ _ y.n_basis (hAMrow i hi) (by rw [colL_length, hTlen])]
      have hentryL : ∀ l : Fin y.n_basis,
          ((matMulL x.coefficients (innerMatrixM quad bop x.basis y.basis)).getD i []).getD l 0
            = ∑ k : Fin x.n_basis, (x.coefficients.getD i []).getD k 0 *
                ((innerMatrixM quad bop x.basis y.basis).getD k []).getD l 0 := by
        intro l
        rw [matMulL_entry _ _ i l hi (by rw [hMhead]; exact l.isLt)]
        rw [dotL_sum' _ _ x.n_basis (hArow i hi) (by rw [colL_length, hM1]; rfl)]
        refine Finset.sum_congr rfl (fun k _ => ?_)
        rw [colL_getD _ _ k (by rw [hM1]; exact k.isLt)]
      have hentryR : ∀ l : Fin y.n_basis,
          (colL (transposeL y.coefficients) j).getD l 0
            = (y.coefficients.getD j []).getD l 0 := by
        intro l
        rw [colL_getD _ _ l (by rw [hTlen]; exact l.isLt),
          transposeL_getD y.coefficients l (by rw [hC2head]; exact l.isLt),
          colL_getD _ _ j hj]
      calc (∑ l : Fin y.n_basis,
              ((matMulL x.coefficients (innerMatrixM quad bop x.basis y.basis)).getD
                i []).getD l 0 * (colL (transposeL y.coefficients) j).getD l 0)
          = ∑ l : Fin y.n_basis, (∑ k : Fin x.n_basis,
              (x.coefficients.getD i []).getD k 0 *
              ((innerMatrixM quad bop x.basis y.basis).getD k []).getD l 0) *
              (y.coefficients.getD j []).getD l 0 :=
            Finset.sum_congr rfl (fun l _ => by rw [hentryL l, hentryR l])
        _ = ∑ l : Fin y.n_basis, ∑ k : Fin x.n_basis,
              (x.coefficients.getD i []).getD k 0 *
              ((innerMatrixM quad bop x.basis y.basis).getD k []).getD l 0 *
              (y.coefficients.getD j []).getD l 0 :=
            Finset.sum_congr rfl (fun l _ => Finset.sum_mul _ _ _)
        _ = ∑ k : Fin x.n_basis, ∑ l : Fin y.n_basis,
              (x.coefficients.getD i []).getD k 0 *
              ((innerMatrixM quad bop x.basis y.basis).getD k []).getD l 0 *
              (y.coefficients.getD j []).getD l 0 := Finset.sum_comm
  · intro hle
    refine ⟨by rw [hred, if_neg hle], ?_⟩
    intro i j hi hj
    have hrow_dom : (x.row i).domain_range = (y.row j).domain_range := hdom
    refine ⟨_, times_of_same_domain bop (x.row i) (y.row j) hrow_dom, ?_⟩
    unfold innerProductIntegrate
    rw [getD_range_map _ [] hi, getD_range_map _ 0 hj]
    unfold pairIntegral
    rw [times_of_same_domain bop (x.row i) (y.row j) hrow_dom]

def c1quad : (ℚ → ℚ) → ℚ → ℚ → ℚ := fun _ a b => b - a

def c1bop : BasisM → BasisM → BasisM := fun B _ => B

def c1x : FDataBasis := ⟨monomialBasis (0, 1) 1, [[2], [3]]⟩

def c1y : FDataBasis := ⟨monomialBasis (0, 1) 1, [[4], [5]]⟩

theorem claim_C1_witness :
    c1x.n_samples * c1y.n_samples > c1x.n_basis * c1y.n_basis
    ∧ FDataBasis.inner_product c1quad c1bop none c1x c1y
      = some ((List.range c1x.n_samples).map (fun i =>
          (List.range c1y.n_samples).map (fun j =>
            ∑ k : Fin c1x.n_basis, ∑ l : Fin c1y.n_basis,
              (c1x.coefficients.getD i []).getD k 0 *
              ((innerMatrixM c1quad c1bop c1x.basis c1y.basis).getD k []).getD l 0 *
              (c1y.coefficients.getD j []).getD l 0))) :=
  ⟨by decide,
   (claim_C1 c1quad c1bop c1x c1y (by decide) (by decide) (by decide)
      (by decide) (by decide)).1 (by decide)⟩

/-! ## Claim C2 -/

theorem zipWith_map_same {α β γ δ : Type} (f : β → γ → δ) (g : α → β) (h : α → γ)
    (l : List α) :
    List.zipWith f (l.map g) (l.map h) = l.map (fun t => f (g t) (h t)) := by
  induction l with
  | nil => rfl
  | cons a l ih => simp [ih]

theorem foldr_zipWith_add (mesh : List ℚ) (g : ℕ → ℚ → ℚ) (L : List ℕ) :
    (L.map (fun i => mesh.map (g i))).foldr (List.zipWith (fun p q => p + q))
      (mesh.map (fun _ => (0 : ℚ)))
    = mesh.map (fun t => (L.map (fun i => g i t)).sum) := by
  induction L with
  | nil => simp
  | cons i L ih =>
    simp only [List.map_cons, List.foldr_cons, ih, zipWith_map_same]
    refine congrArg mesh.map ?_
    funext t
    simp

theorem zipWith_sub_map_range (delta : List ℚ) (n : ℕ) (hlen : delta.length = n)
    (u : ℕ → ℚ) :
    List.zipWith (fun p q => p - q) delta ((List.range n).map u)
      = (List.range n).map (fun i => delta.getD i 0 - u i) := by
  conv_lhs => rw [show delta = (List.range n).map (fun i => delta.getD i 0) from by
    rw [← hlen]; exact (range_map_getD delta 0).symm]
  rw [zipWith_map_same]

theorem regStep_eq_specStep (P : RegP) (delta : List ℚ)
    (hlen : delta.length = P.fd.nsamples) :
    regStep P delta = specStep P delta := by
  simp only [regStep, specStep, foldr_zipWith_add, List.map_map, zipWith_map_same,
    Function.comp_def]
  rw [zipWith_sub_map_range delta P.fd.nsamples hlen]
  unfold specD1 specD2 specMeanAt
  rw [Prod.mk.injEq]
  constructor
  · refine List.map_congr_left (fun i hi => ?_)
    rw [getD_range_map _ 0 (List.mem_range.mp hi)]
  · rfl

theorem specStep_length (P : RegP) (delta : List ℚ) :
    (specStep P delta).1.length = P.fd.nsamples := by
  simp [specStep]

theorem regLoop_stop (P : RegP) (fuel : ℕ) (m : ℚ) (delta : List ℚ)
    (h : ¬ m > P.tol) : regLoop P fuel m delta = delta := by
  cases fuel <;> simp [regLoop, h]

theorem regLoop_eq_specLoopLe (P : RegP) : ∀ (fuel : ℕ) (delta : List ℚ) (m : ℚ),
    delta.length = P.fd.nsamples → m > P.tol →
    regLoop P fuel m delta = specLoopLe P fuel delta := by
  intro fuel
  induction fuel with
  | zero => intro delta m _ _; rfl
  | succ f ih =>
    intro delta m hlen hm
    simp only [regLoop, specLoopLe]
    rw [if_pos hm, regStep_eq_specStep P delta hlen]
    by_cases hu : maxAbs (specStep P delta).2 ≤ P.tol
    · rw [if_pos hu]
      exact regLoop_stop P f _ _ (not_lt.mpr hu)
    · rw [if_neg hu]
      exact ih (specStep P delta).1 _ (specStep_length P delta) (not_le.mp hu)

/-- C2 (amended): `shift_registration` coincides, on every input, with the
claim-side rendition in which each per-curve shift is updated by
`delta_i <- delta_i - alpha * d1_i / d2_i` — `d1_i` the trapezoidal integral over
the current mesh of (curve `i` at its shifted mesh minus the cross-sample mean)
times the derivative values, `d2_i` the integral of the squared derivative
values — and the iteration stops exactly when `max_i |update_i| <= tolerance`
(at or below, not strictly below, the tolerance) or after `max_iterations`
iterations, whichever comes first. -/
theorem claim_C2 (fd : RegFD) (maxiter : ℕ) (tol : ℚ) (ext : ExtArg) (alpha : ℚ)
    (initial tfine : List ℚ) :
    shift_registration fd maxiter tol ext alpha initial tfine
      = shiftRegistrationSpecLe fd maxiter tol ext alpha initial tfine := by
  simp only [shift_registration, shiftRegistrationSpecLe]
  by_cases hinit : initial ≠ [] ∧ initial.length ≠ fd.nsamples
  · rw [if_pos hinit, if_pos hinit]
  · rw [if_neg hinit, if_neg hinit]
    rcases hce : checkExtrapolation fd ext with _ | pe
    · rfl
    · refine congrArg some ?_
      apply regLoop_eq_specLoopLe
      · by_cases h0 : initial = []
        · simp [h0]
        · have hl : initial.length = fd.nsamples := by
            rcases not_and_or.mp hinit with h | h
            · exact absurd h0 (by simpa using h)
            · simpa using h
          simp [h0, hl]
      · exact lt_add_one tol

def c2fd : RegFD :=
  ⟨2, 1, 0, 1, (fun i _ => if i = 0 then 1/50 else 0), (fun _ _ => 1), 3⟩

/-- C2 counterexample: two constant curves at heights `1/50` and `0` on the mesh
`[0, 1]` with unit derivative values, `tol = 1/100`, `alpha = 1`, `maxiter = 5`,
periodic extension, zero initial shifts.  Every iteration produces the update
vector `[1/100, -1/100]`, whose maximal absolute value equals the tolerance
exactly.  The code's loop (`while max_diff > tol`) stops after one iteration and
returns `[-1/100, 1/100]`, whereas the claim's stopping rule ("stops exactly when
`max_i |update_i| < tolerance`") never fires and would run all five iterations,
returning `[-1/20, 1/20]`: the claim as stated is false on this input. -/
theorem counterexample_C2 :
    shift_registration c2fd 5 (1/100) ExtArg.periodicE 1 [] [0, 1]
      = some [-(1/100), 1/100]
    ∧ shiftRegistrationSpecLt c2fd 5 (1/100) ExtArg.periodicE 1 [] [0, 1]
      = some [-(1/20), 1/20]
    ∧ shift_registration c2fd 5 (1/100) ExtArg.periodicE 1 [] [0, 1]
      ≠ shiftRegistrationSpecLt c2fd 5 (1/100) ExtArg.periodicE 1 [] [0, 1] := by
  refine ⟨?_, ?_, ?_⟩ <;> with_unfolding_all decide
